import Mathlib

/-!
Verification of the text-to-frequency pipeline and chart-data adapter of the
web text-analysis application (`app.py`).

Strings are modelled as `List Char` (for the character-level normalizer) and
as `String` (for tokens).  Pure Python functions are embedded as Lean
functions; the jieba segmentation backend is external to the repository and is
modelled as an opaque-parameter function `cut : String → List String`.
-/

namespace WebTextAnalysis

/-! ### Character classes

`preprocess_text` keeps characters matching `[一-鿿A-Za-z]`
(CJK ideographs and ASCII letters) and replaces everything else by a space.
-/

/-- A CJK ideograph, i.e. a character in the range U+4E00 – U+9FFF. -/
def isCJK (c : Char) : Bool :=
  decide (0x4e00 ≤ c.toNat ∧ c.toNat ≤ 0x9fff)

/-- An ASCII letter `A-Z` or `a-z`. -/
def isAsciiAlpha (c : Char) : Bool :=
  decide ((65 ≤ c.toNat ∧ c.toNat ≤ 90) ∨ (97 ≤ c.toNat ∧ c.toNat ≤ 122))

/-- Characters kept by the character-class substitution
`re.sub(r'[^一-鿿A-Za-z]', ' ', text)`. -/
def isKept (c : Char) : Bool :=
  isCJK c || isAsciiAlpha c

/-- The ASCII whitespace characters matched by Python's `\s` and stripped by
`str.strip()` (space, tab, newline, carriage return, vertical tab, form
feed).  Python additionally treats some non-ASCII Unicode characters as
whitespace; those never reach the whitespace-handling stage of
`preprocess_text` because the character-class substitution has already
replaced every non-CJK non-letter character by a plain space. -/
def isPySpace (c : Char) : Bool :=
  c == ' ' || c == '\t' || c == '\n' || c == '\r' || c == Char.ofNat 11 || c == Char.ofNat 12

/-! ### `re.sub(r'<.*?>', '', text)` — HTML tag stripping

The pattern `<.*?>` matches a `<`, then non-greedily any characters other
than newline (`.` does not match `\n`), then the nearest `>`.  `re.sub`
removes the leftmost match and continues scanning after it.
-/

/-- Scan for the closing `>` of a tag: returns the remainder of the list
after the first `>`, or `none` if a newline or the end of input comes
first (in which case the regex `<.*?>` has no match starting at the
current `<`). -/
def findClose : List Char → Option (List Char)
  | [] => none
  | c :: rest =>
    if c = '>' then some rest
    else if c = '\n' then none
    else findClose rest

theorem findClose_length :
    ∀ (cs rest : List Char), findClose cs = some rest → rest.length < cs.length := by
  intro cs
  induction cs with
  | nil => intro rest h; simp [findClose] at h
  | cons c cs ih =>
    intro rest h
    simp only [findClose] at h
    split at h
    · cases h; simp
    · split at h
      · cases h
      · have := ih rest h
        simp
        omega

/-- `re.sub(r'<.*?>', '', text)`: delete every substring from a `<` to the
nearest following `>` with no intervening newline. -/
def stripTags : List Char → List Char
  | [] => []
  | c :: rest =>
    if c = '<' then
      match h : findClose rest with
      | some rest2 => stripTags rest2
      | none => c :: stripTags rest
    else c :: stripTags rest
termination_by l => l.length
decreasing_by
  · have := findClose_length rest rest2 h
    simp
    omega
  · simp
  · simp

/-- `re.sub(r'[^一-鿿A-Za-z]', ' ', text)`: every character that is
not a CJK ideograph or an ASCII letter becomes a single space. -/
def keepAlpha (l : List Char) : List Char :=
  l.map (fun c => if isKept c then c else ' ')

/-- `re.sub(r'\s+', ' ', text)`: each maximal run of whitespace characters
collapses to one space. -/
def collapseWs : List Char → List Char
  | [] => []
  | [c] => if isPySpace c then [' '] else [c]
  | c1 :: c2 :: rest =>
    if isPySpace c1 && isPySpace c2 then collapseWs (c2 :: rest)
    else (if isPySpace c1 then ' ' else c1) :: collapseWs (c2 :: rest)

/-- Python `str.strip()`: remove leading and trailing whitespace. -/
def pyStrip (l : List Char) : List Char :=
  ((l.dropWhile isPySpace).reverse.dropWhile isPySpace).reverse

/-- `preprocess_text`: strip HTML tags, replace every character outside the
supported alphabets by a space, collapse whitespace runs and trim. -/
def preprocess_text (l : List Char) : List Char :=
  pyStrip (collapseWs (keepAlpha (stripTags l)))

example : preprocess_text "a<b>c".toList = "ac".toList := by
  simp [preprocess_text, stripTags, findClose]; decide
example : preprocess_text "<p>Hi,  世界!</p>".toList = "Hi 世界".toList := by
  simp [preprocess_text, stripTags, findClose]; decide
example : preprocess_text "<a\n<b>x".toList = "a x".toList := by
  simp [preprocess_text, stripTags, findClose]; decide
example : preprocess_text [] = [] := by
  simp [preprocess_text, stripTags]; decide

/-! ### Invariants of the normalizer -/

theorem mem_keepAlpha {c : Char} {l : List Char} (h : c ∈ keepAlpha l) :
    isKept c = true ∨ c = ' ' := by
  simp only [keepAlpha, List.mem_map] at h
  obtain ⟨d, -, rfl⟩ := h
  by_cases hd : isKept d = true <;> simp [hd]

theorem mem_collapseWs : ∀ (l : List Char) (c : Char), c ∈ collapseWs l → c ∈ l ∨ c = ' '
  | [], c, h => by simp [collapseWs] at h
  | [d], c, h => by
    simp only [collapseWs] at h
    split at h <;> simp_all
  | d1 :: d2 :: rest, c, h => by
    simp only [collapseWs] at h
    split at h
    · rcases mem_collapseWs (d2 :: rest) c h with h' | h'
      · exact Or.inl (List.mem_cons_of_mem d1 h')
      · exact Or.inr h'
    · rcases List.mem_cons.mp h with h' | h'
      · subst h'
        split <;> simp_all
      · rcases mem_collapseWs (d2 :: rest) c h' with h'' | h''
        · exact Or.inl (List.mem_cons_of_mem d1 h'')
        · exact Or.inr h''

theorem pyStrip_sublist (l : List Char) : (pyStrip l).Sublist l := by
  unfold pyStrip
  have h1 : (l.dropWhile isPySpace).Sublist l := (List.dropWhile_suffix _).sublist
  have h2 := ((List.dropWhile_suffix (l := (l.dropWhile isPySpace).reverse) isPySpace).sublist).reverse
  simp only [List.reverse_reverse] at h2
  exact h2.trans h1

theorem collapseWs_cons_of_not_space {d : Char} (hd : isPySpace d = false) :
    ∀ (rest : List Char), ∃ t, collapseWs (d :: rest) = d :: t
  | [] => ⟨[], by simp [collapseWs, hd]⟩
  | e :: rest => ⟨collapseWs (e :: rest), by simp [collapseWs, hd]⟩

theorem chain'_collapseWs : ∀ (l : List Char),
    (collapseWs l).Chain' (fun a b => ¬(isPySpace a = true ∧ isPySpace b = true))
  | [] => by simp [collapseWs]
  | [d] => by
    simp only [collapseWs]
    split <;> simp
  | d1 :: d2 :: rest => by
    have ih := chain'_collapseWs (d2 :: rest)
    by_cases h1 : isPySpace d1 = true
    · by_cases h2 : isPySpace d2 = true
      · simpa [collapseWs, h1, h2] using ih
      · have h2' : isPySpace d2 = false := by simpa using h2
        obtain ⟨t, ht⟩ := collapseWs_cons_of_not_space h2' rest
        rw [show collapseWs (d1 :: d2 :: rest) = ' ' :: collapseWs (d2 :: rest) by
          simp [collapseWs, h1, h2']]
        rw [ht] at ih ⊢
        exact List.Chain'.cons (by simp [h2']) ih
    · have h1' : isPySpace d1 = false := by simpa using h1
      rw [show collapseWs (d1 :: d2 :: rest) = d1 :: collapseWs (d2 :: rest) by
        simp [collapseWs, h1']]
      exact List.chain'_cons'.mpr ⟨fun b _ => by simp [h1'], ih⟩

theorem chain'_pyStrip {R : Char → Char → Prop} (hs : ∀ a b, R a b → R b a)
    {l : List Char} (h : l.Chain' R) : (pyStrip l).Chain' R := by
  unfold pyStrip
  have h1 : (l.dropWhile isPySpace).Chain' R := h.suffix (List.dropWhile_suffix _)
  have h2 : ((l.dropWhile isPySpace).reverse).Chain' R :=
    List.chain'_reverse.mpr (h1.imp fun a b hab => hs a b hab)
  have h3 : (((l.dropWhile isPySpace).reverse).dropWhile isPySpace).Chain' R :=
    h2.suffix (List.dropWhile_suffix _)
  exact List.chain'_reverse.mpr (h3.imp fun a b hab => hs a b hab)

theorem dropWhile_head_false {p : Char → Bool} :
    ∀ {l t : List Char} {c : Char}, l.dropWhile p = c :: t → p c = false
  | [], t, c => by simp
  | d :: l, t, c => by
    intro h
    by_cases hd : p d = true
    · rw [List.dropWhile_cons, if_pos hd] at h
      exact dropWhile_head_false h
    · rw [List.dropWhile_cons, if_neg hd] at h
      cases h
      simpa using hd

theorem pyStrip_head?_not_space {l : List Char} {c : Char}
    (h : (pyStrip l).head? = some c) : isPySpace c = false := by
  unfold pyStrip at h
  rw [List.head?_reverse] at h
  set m := l.dropWhile isPySpace with hm
  obtain ⟨pre, hpre⟩ := List.dropWhile_suffix (l := m.reverse) isPySpace
  have hrev : m.reverse.getLast? = some c := by
    rw [← hpre, List.getLast?_append, h]
    rfl
  rw [List.getLast?_reverse] at hrev
  cases hm2 : m with
  | nil => rw [hm2] at hrev; simp at hrev
  | cons d t =>
    rw [hm2] at hrev
    simp only [List.head?_cons, Option.some.injEq] at hrev
    have hmeq : l.dropWhile isPySpace = d :: t := by rw [← hm]; exact hm2
    exact hrev ▸ dropWhile_head_false hmeq

theorem pyStrip_getLast?_not_space {l : List Char} {c : Char}
    (h : (pyStrip l).getLast? = some c) : isPySpace c = false := by
  unfold pyStrip at h
  rw [List.getLast?_reverse] at h
  cases hm : ((l.dropWhile isPySpace).reverse.dropWhile isPySpace) with
  | nil => rw [hm] at h; simp at h
  | cons d t =>
    rw [hm] at h
    simp only [List.head?_cons, Option.some.injEq] at h
    exact h ▸ dropWhile_head_false hm

/-- The invariants established by `preprocess_text`: only kept characters and
single spaces, no adjacent whitespace, no whitespace at either end. -/
theorem preprocess_text_invariants (l : List Char) :
    (∀ c ∈ preprocess_text l, isKept c = true ∨ c = ' ') ∧
    (preprocess_text l).Chain' (fun a b => ¬(isPySpace a = true ∧ isPySpace b = true)) ∧
    (∀ c, (preprocess_text l).head? = some c → isPySpace c = false) ∧
    (∀ c, (preprocess_text l).getLast? = some c → isPySpace c = false) := by
  refine ⟨?_, ?_, ?_, ?_⟩
  · intro c hc
    have hc2 : c ∈ collapseWs (keepAlpha (stripTags l)) :=
      (pyStrip_sublist _).subset hc
    rcases mem_collapseWs _ _ hc2 with h' | h'
    · exact mem_keepAlpha h'
    · exact Or.inr h'
  · exact chain'_pyStrip (fun a b hab h => hab ⟨h.2, h.1⟩) (chain'_collapseWs _)
  · intro c hc
    exact pyStrip_head?_not_space hc
  · intro c hc
    exact pyStrip_getLast?_not_space hc

/-! ### Idempotence of the normalizer -/

theorem isPySpace_not_kept {c : Char} (h : isPySpace c = true) : isKept c = false := by
  simp only [isPySpace, Bool.or_eq_true, beq_iff_eq] at h
  rcases h with ⟨⟨⟨⟨rfl | rfl⟩ | rfl⟩ | rfl⟩ | rfl⟩ | rfl <;> decide

theorem stripTags_eq_self {l : List Char} (h : ∀ c ∈ l, c ≠ '<') : stripTags l = l := by
  induction l with
  | nil => simp [stripTags]
  | cons c rest ih =>
    have hc : ¬(c = '<') := h c (by simp)
    rw [show stripTags (c :: rest) = c :: stripTags rest by simp [stripTags, hc]]
    rw [ih (fun d hd => h d (List.mem_cons_of_mem c hd))]

theorem keepAlpha_eq_self {l : List Char} (h : ∀ c ∈ l, isKept c = true ∨ c = ' ') :
    keepAlpha l = l := by
  have heq : ∀ c ∈ l, (if isKept c then c else ' ') = c := by
    intro c hc
    rcases h c hc with h' | h'
    · simp [h']
    · subst h'
      split <;> rfl
  calc keepAlpha l = l.map id := List.map_congr_left heq
  _ = l := l.map_id

theorem collapseWs_eq_self : ∀ (l : List Char),
    l.Chain' (fun a b => ¬(isPySpace a = true ∧ isPySpace b = true)) →
    (∀ c ∈ l, isPySpace c = true → c = ' ') →
    collapseWs l = l
  | [], _, _ => by simp [collapseWs]
  | [d], _, hsp => by
    simp only [collapseWs]
    split
    · next hd => rw [hsp d (by simp) hd]
    · rfl
  | d1 :: d2 :: rest, hch, hsp => by
    have hR : ¬(isPySpace d1 = true ∧ isPySpace d2 = true) :=
      (List.chain'_cons.mp hch).1
    have hcond : (isPySpace d1 && isPySpace d2) = false := by
      cases h1 : isPySpace d1 <;> cases h2 : isPySpace d2 <;> simp_all
    rw [show collapseWs (d1 :: d2 :: rest) =
        (if isPySpace d1 then ' ' else d1) :: collapseWs (d2 :: rest) by
      simp [collapseWs, hcond]]
    have hd1 : (if isPySpace d1 then ' ' else d1) = d1 := by
      split
      · next hsp1 => rw [hsp d1 (by simp) hsp1]
      · rfl
    rw [hd1, collapseWs_eq_self (d2 :: rest) (List.chain'_cons.mp hch).2
      (fun c hc h => hsp c (List.mem_cons_of_mem d1 hc) h)]

theorem pyStrip_eq_self {l : List Char}
    (h1 : ∀ c, l.head? = some c → isPySpace c = false)
    (h2 : ∀ c, l.getLast? = some c → isPySpace c = false) :
    pyStrip l = l := by
  unfold pyStrip
  have e1 : l.dropWhile isPySpace = l := by
    cases l with
    | nil => rfl
    | cons d t =>
      rw [List.dropWhile_cons, if_neg (by simp [h1 d rfl])]
  rw [e1]
  have e2 : l.reverse.dropWhile isPySpace = l.reverse := by
    cases hr : l.reverse with
    | nil => rfl
    | cons d t =>
      have hd : l.getLast? = some d := by
        rw [← List.head?_reverse, hr]
        rfl
      rw [List.dropWhile_cons, if_neg (by simp [h2 d hd])]
  rw [e2, List.reverse_reverse]

/-- All characters produced by the normalizer are CJK ideographs, ASCII
letters or the plain space, so in particular none of them is `<`. -/
theorem preprocess_text_chars_ne_lt {l : List Char} {c : Char}
    (h : c ∈ preprocess_text l) : c ≠ '<' := by
  rcases (preprocess_text_invariants l).1 c h with h' | h'
  · intro hc
    rw [hc] at h'
    simp [isKept, isCJK, isAsciiAlpha] at h'
  · intro hc
    rw [hc] at h'
    cases h'

/-- Applying the whole normalizer to the output of the normalizer changes
nothing: every stage fixes the output of `preprocess_text`. -/
theorem preprocess_text_fixed (l : List Char) :
    preprocess_text (preprocess_text l) = preprocess_text l := by
  obtain ⟨hclass, hchain, hhead, hlast⟩ := preprocess_text_invariants l
  show pyStrip (collapseWs (keepAlpha (stripTags (preprocess_text l)))) = preprocess_text l
  rw [stripTags_eq_self (fun c hc => preprocess_text_chars_ne_lt hc)]
  rw [keepAlpha_eq_self hclass]
  rw [collapseWs_eq_self _ hchain (fun c hc h => by
    rcases hclass c hc with h' | h'
    · rw [isPySpace_not_kept h] at h'
      cases h'
    · exact h')]
  exact pyStrip_eq_self hhead hlast

/-! ### Stopword filtering and frequency counting (`segment_and_count`)

The jieba segmentation backend is not part of the repository; it enters the
embedding as a parameter `cut : String → List String`.
-/

/-- The comprehension
`[word for word in jieba.cut(text) if word.strip() and word not in stopwords]`:
keep a token iff it is non-empty after stripping whitespace and is not a
stopword (exact, case-sensitive match). -/
def filterTokens (tokens : List String) (stopwords : List String) : List String :=
  tokens.filter (fun w => !(pyStrip w.toList).isEmpty && !(stopwords.contains w))

/-- The keys of `collections.Counter(words)` in insertion order, i.e. the
distinct tokens ordered by first occurrence. -/
def counterKeys : List String → List String
  | [] => []
  | w :: ws => w :: (counterKeys ws).filter (fun v => v != w)

/-- `collections.Counter(words)` as an association list: the distinct tokens
in first-occurrence order, each paired with its number of occurrences. -/
def counter (tokens : List String) : List (String × Nat) :=
  (counterKeys tokens).map (fun w => (w, tokens.count w))

/-- `segment_and_count`: tokenize, filter, count. -/
def segment_and_count (cut : String → List String) (text : String)
    (stopwords : List String) : List (String × Nat) :=
  counter (filterTokens (cut text) stopwords)

/-! ### `Counter.most_common`

`most_common(n)` is documented as `sorted(items, key=count, reverse=True)[:n]`
with a stable sort, so elements with equal counts keep their insertion
(first-occurrence) order.  We embed it as a stable insertion sort by
descending count followed by `take n`. -/

/-- Insert an entry into a count-descending list, after all entries with a
count `≥` its own (stability: an earlier entry never moves past an equal
later one). -/
def insertDesc (p : String × Nat) : List (String × Nat) → List (String × Nat)
  | [] => [p]
  | q :: qs => if p.2 ≥ q.2 then p :: q :: qs else q :: insertDesc p qs

/-- Stable sort by count descending. -/
def sortDesc (l : List (String × Nat)) : List (String × Nat) :=
  l.foldr insertDesc []

/-- `Counter.most_common(n)`. -/
def mostCommon (word_counts : List (String × Nat)) (n : Nat) : List (String × Nat) :=
  (sortDesc word_counts).take n

example : filterTokens ["the", "cat", "sat", "on", "the", "mat", "the", "cat", "ran"]
    ["the", "on"] = ["cat", "sat", "mat", "cat", "ran"] := by decide
example : counter ["cat", "sat", "mat", "cat", "ran"] =
    [("cat", 2), ("sat", 1), ("mat", 1), ("ran", 1)] := by decide
example : mostCommon (counter ["cat", "sat", "mat", "cat", "ran"]) 3 =
    [("cat", 2), ("sat", 1), ("mat", 1)] := by decide
example : mostCommon (counter ["cat", "sat", "mat", "cat", "ran"]) 0 = [] := by decide
example : filterTokens [" ", "", "\t"] [] = [] := by decide

/-! ### Chart construction (`create_chart`, `draw_word_cloud`, `render_pyechart`) -/

/-- The series data each pyecharts chart object receives. -/
inductive Chart where
  | bar (xaxis : List String) (yaxis : List Nat) (reversedAxis : Bool)
  | pie (pairs : List (String × Nat))
  | line (xaxis : List String) (yaxis : List Nat) (areaStyle : Bool)
  | scatter (xaxis : List String) (yaxis : List Nat)
  | radar (schema : List (String × Nat)) (data : List (List Nat))
deriving DecidableEq

/-- Python `max` over a sequence of numbers: raises `ValueError` (here
`none`) on an empty sequence. -/
def pymax : List Nat → Option Nat
  | [] => none
  | x :: xs => some (xs.foldl max x)

/-- The radar schema comprehension
`[opts.RadarIndicatorItem(name=word, max_=max(counts)) for word in words]`:
`max(counts)` is evaluated once per produced item, hence never when `words`
is empty; on a non-empty `words` with empty `counts` it would raise. -/
def radarSchema (words : List String) (counts : List Nat) :
    Except String (List (String × Nat)) :=
  match words with
  | [] => Except.ok []
  | _ :: _ =>
    match pymax counts with
    | some m => Except.ok (words.map (fun w => (w, m)))
    | none => Except.error "ValueError: max() arg is an empty sequence"

/-- `create_chart`: select the top `top_n` entries, unzip them into parallel
`words`/`counts` sequences, and build the series for the requested chart
kind; unknown kinds yield `none` (Python `None`), a raised exception is
`Except.error`. -/
def create_chart (chart_type : String) (word_counts : List (String × Nat))
    (top_n : Nat) : Except String (Option Chart) :=
  let top_words := mostCommon word_counts top_n
  let words := top_words.map Prod.fst
  let counts := top_words.map Prod.snd
  if chart_type = "垂直条形图" then Except.ok (some (Chart.bar words counts false))
  else if chart_type = "水平条形图" then Except.ok (some (Chart.bar words counts true))
  else if chart_type = "饼图" then Except.ok (some (Chart.pie (words.zip counts)))
  else if chart_type = "折线图" then Except.ok (some (Chart.line words counts false))
  else if chart_type = "散点图" then Except.ok (some (Chart.scatter words counts))
  else if chart_type = "雷达图" then
    match radarSchema words counts with
    | Except.ok schema => Except.ok (some (Chart.radar schema [counts]))
    | Except.error e => Except.error e
  else if chart_type = "面积图" then Except.ok (some (Chart.line words counts true))
  else Except.ok none

/-- `render_pyechart` renders iff it received an actual chart object
(`if chart:`); `None` is skipped. -/
def render_pyechart (chart : Option Chart) : Bool :=
  chart.isSome

/-- The word-cloud data: `WordCloud().add("", list(word_counts.items()), ...)`
receives every (word, count) pair of the frequency table. -/
structure CloudChart where
  pairs : List (String × Nat)

/-- `draw_word_cloud` passes the full frequency table to the renderer. -/
def draw_word_cloud (word_counts : List (String × Nat)) : CloudChart :=
  ⟨word_counts⟩

/-- The chart kinds `create_chart` knows how to build. -/
def supportedKinds : List String :=
  ["垂直条形图", "水平条形图", "饼图", "折线图", "散点图", "雷达图", "面积图"]

/-- The computational core of `main` for one submission: preprocess, count,
take the top-20 list for display, and build the chart series (the word-cloud
kind bypasses `create_chart`). -/
def runAnalysis (cut : String → List String) (rawText : String)
    (stopwords : List String) (chart_type : String) :
    List (String × Nat) × List (String × Nat) × Except String (Option Chart) :=
  let processed := String.mk (preprocess_text rawText.toList)
  let word_counts := segment_and_count cut processed stopwords
  let top_words := mostCommon word_counts 20
  (word_counts, top_words,
    if chart_type = "词云" then Except.ok none
    else create_chart chart_type word_counts 20)

example : create_chart "垂直条形图" [("a", 2), ("b", 1)] 20 =
    Except.ok (some (Chart.bar ["a", "b"] [2, 1] false)) := by rfl
example : create_chart "雷达图" [("a", 2), ("b", 1)] 20 =
    Except.ok (some (Chart.radar [("a", 2), ("b", 2)] [[2, 1]])) := by rfl
example : create_chart "unknown" [("a", 2)] 20 = Except.ok none := by rfl
example : create_chart "雷达图" [] 20 = Except.ok (some (Chart.radar [] [[]])) := by rfl

/-! ### Properties of the stopword filter and of `counter` -/

theorem mem_counterKeys : ∀ {tokens : List String} {w : String},
    w ∈ counterKeys tokens ↔ w ∈ tokens := by
  intro tokens
  induction tokens with
  | nil => simp [counterKeys]
  | cons t ts ih =>
    intro w
    simp only [counterKeys, List.mem_cons, List.mem_filter, bne_iff_ne, ih]
    constructor
    · rintro (rfl | ⟨hmem, -⟩)
      · exact Or.inl rfl
      · exact Or.inr hmem
    · rintro (rfl | hmem)
      · exact Or.inl rfl
      · by_cases hw : w = t
        · exact Or.inl hw
        · exact Or.inr ⟨hmem, hw⟩

theorem nodup_counterKeys : ∀ (tokens : List String), (counterKeys tokens).Nodup
  | [] => List.nodup_nil
  | t :: ts => by
    simp only [counterKeys]
    refine List.Nodup.cons ?_ (List.Nodup.filter _ (nodup_counterKeys ts))
    intro hmem
    rcases List.mem_filter.mp hmem with ⟨-, habs⟩
    simp at habs

theorem counter_count {tokens : List String} {p : String × Nat}
    (h : p ∈ counter tokens) : p.2 = tokens.count p.1 := by
  simp only [counter, List.mem_map] at h
  obtain ⟨w, -, rfl⟩ := h
  rfl

theorem sum_map_filter_ne (f : String → Nat) (t : String) :
    ∀ (ks : List String), ks.Nodup →
      (ks.map f).sum =
        (if t ∈ ks then f t else 0) + ((ks.filter (fun v => v != t)).map f).sum
  | [], _ => by simp
  | k :: ks, hnd => by
    have hk_not : k ∉ ks := (List.nodup_cons.mp hnd).1
    have ih := sum_map_filter_ne f t ks (List.nodup_cons.mp hnd).2
    by_cases hk : k = t
    · subst hk
      have hfil : ks.filter (fun v => v != k) = ks :=
        List.filter_eq_self.mpr (fun a ha => bne_iff_ne.mpr (fun he => hk_not (he ▸ ha)))
      have hfc : (k :: ks).filter (fun v => v != k) = ks.filter (fun v => v != k) := by
        rw [List.filter_cons, if_neg (by simp)]
      rw [hfc, hfil, if_pos (List.mem_cons_self k ks), List.map_cons, List.sum_cons]
    · have hfc : (k :: ks).filter (fun v => v != t) = k :: ks.filter (fun v => v != t) := by
        rw [List.filter_cons, if_pos (by simp [bne_iff_ne, hk])]
      have ht' : ¬(t = k) := fun he => hk he.symm
      have hmem : (t ∈ k :: ks) ↔ (t ∈ ks) := by simp [ht']
      rw [hfc, List.map_cons, List.sum_cons, List.map_cons, List.sum_cons]
      by_cases ht : t ∈ ks
      · rw [if_pos (hmem.mpr ht)]
        rw [if_pos ht] at ih
        omega
      · rw [if_neg (fun h => ht (hmem.mp h))]
        rw [if_neg ht] at ih
        omega

theorem counter_sum : ∀ (tokens : List String),
    ((counter tokens).map Prod.snd).sum = tokens.length
  | [] => rfl
  | t :: ts => by
    have ih := counter_sum ts
    have hkeys : counter (t :: ts) =
        (t :: (counterKeys ts).filter (fun v => v != t)).map
          (fun w => (w, (t :: ts).count w)) := rfl
    rw [hkeys, List.map_map]
    have hsnd : (Prod.snd ∘ fun w => (w, (t :: ts).count w)) =
        (fun w => (t :: ts).count w) := rfl
    rw [hsnd]
    simp only [List.map_cons, List.sum_cons]
    have hcount_t : (t :: ts).count t = ts.count t + 1 := by
      rw [List.count_cons]
      simp
    have hcongr : ((counterKeys ts).filter (fun v => v != t)).map
          (fun w => (t :: ts).count w) =
        ((counterKeys ts).filter (fun v => v != t)).map (fun w => ts.count w) := by
      apply List.map_congr_left
      intro w hw
      have hwt : w ≠ t := by
        rcases List.mem_filter.mp hw with ⟨-, h⟩
        exact bne_iff_ne.mp h
      rw [List.count_cons, if_neg (by simp [hwt.symm])]
      omega
    rw [hcount_t, hcongr]
    have hsplit := sum_map_filter_ne (fun w => ts.count w) t (counterKeys ts)
      (nodup_counterKeys ts)
    have hmap : (counter ts).map Prod.snd = (counterKeys ts).map (fun w => ts.count w) := by
      rw [counter, List.map_map]
      rfl
    rw [hmap] at ih
    by_cases ht : t ∈ ts
    · rw [if_pos (mem_counterKeys.mpr ht)] at hsplit
      simp only at hsplit
      simp only [List.length_cons]
      omega
    · rw [if_neg (fun h => ht (mem_counterKeys.mp h))] at hsplit
      have : ts.count t = 0 := List.count_eq_zero.mpr ht
      simp only [List.length_cons]
      omega

/-! ### Order produced by `mostCommon` -/

/-- The order in which `most_common` lists two entries: strictly larger
count first; among equal counts, the token occurring first in the token
sequence first. -/
def rankRel (tokens : List String) (a b : String × Nat) : Prop :=
  b.2 < a.2 ∨ (a.2 = b.2 ∧ tokens.indexOf a.1 < tokens.indexOf b.1)

theorem insertDesc_perm (p : String × Nat) : ∀ (l : List (String × Nat)),
    (insertDesc p l).Perm (p :: l)
  | [] => List.Perm.refl _
  | q :: qs => by
    unfold insertDesc
    split
    · exact List.Perm.refl _
    · exact ((insertDesc_perm p qs).cons q).trans (List.Perm.swap p q qs)

theorem sortDesc_perm : ∀ (l : List (String × Nat)), (sortDesc l).Perm l
  | [] => List.Perm.refl _
  | p :: ps => (insertDesc_perm p (sortDesc ps)).trans ((sortDesc_perm ps).cons p)

theorem insertDesc_pairwise {tokens : List String} {p : String × Nat} :
    ∀ {l : List (String × Nat)}, l.Pairwise (rankRel tokens) →
      (∀ q ∈ l, tokens.indexOf p.1 < tokens.indexOf q.1) →
      (insertDesc p l).Pairwise (rankRel tokens)
  | [], _, _ => List.pairwise_singleton _ _
  | q :: qs, hl, hp => by
    obtain ⟨hq_all, hqs⟩ := List.pairwise_cons.mp hl
    unfold insertDesc
    split
    · next hle =>
      refine List.pairwise_cons.mpr ⟨?_, hl⟩
      intro x hx
      rcases List.mem_cons.mp hx with rfl | hx'
      · rcases Nat.lt_or_ge x.2 p.2 with hlt | hge
        · exact Or.inl hlt
        · exact Or.inr ⟨by omega, hp x (List.mem_cons_self x qs)⟩
      · have hxq : x.2 ≤ q.2 := by
          rcases hq_all x hx' with h | ⟨h, -⟩
          · exact Nat.le_of_lt h
          · exact Nat.le_of_eq h.symm
        rcases Nat.lt_or_ge x.2 p.2 with hlt | hge
        · exact Or.inl hlt
        · exact Or.inr ⟨by omega, hp x (List.mem_cons_of_mem q hx')⟩
    · next hgt =>
      have hq_lt : p.2 < q.2 := Nat.lt_of_not_le hgt
      refine List.pairwise_cons.mpr ⟨?_, insertDesc_pairwise hqs
        (fun x hx => hp x (List.mem_cons_of_mem q hx))⟩
      intro x hx
      rcases List.mem_cons.mp ((insertDesc_perm p qs).mem_iff.mp hx) with rfl | hx'
      · exact Or.inl hq_lt
      · exact hq_all x hx'

theorem sortDesc_pairwise {tokens : List String} :
    ∀ {l : List (String × Nat)},
      l.Pairwise (fun a b => tokens.indexOf a.1 < tokens.indexOf b.1) →
      (sortDesc l).Pairwise (rankRel tokens)
  | [], _ => List.Pairwise.nil
  | p :: ps, hl => by
    obtain ⟨hp0, htail⟩ := List.pairwise_cons.mp hl
    show (insertDesc p (sortDesc ps)).Pairwise (rankRel tokens)
    exact insertDesc_pairwise (sortDesc_pairwise htail)
      (fun q hq => hp0 q ((sortDesc_perm ps).mem_iff.mp hq))

theorem counterKeys_pairwise_idx : ∀ (tokens : List String),
    (counterKeys tokens).Pairwise
      (fun w v => tokens.indexOf w < tokens.indexOf v)
  | [] => List.Pairwise.nil
  | t :: ts => by
    simp only [counterKeys]
    refine List.pairwise_cons.mpr ⟨?_, ?_⟩
    · intro v hv
      obtain ⟨hv_mem, hv_ne⟩ := List.mem_filter.mp hv
      have hvt : t ≠ v := fun he => (bne_iff_ne.mp hv_ne) he.symm
      rw [List.indexOf_cons_self, List.indexOf_cons_ne ts hvt]
      exact Nat.succ_pos _
    · have hsub : ((counterKeys ts).filter (fun v => v != t)).Pairwise
          (fun w v => ts.indexOf w < ts.indexOf v) :=
        List.Pairwise.sublist (List.filter_sublist (counterKeys ts))
          (counterKeys_pairwise_idx ts)
      refine List.Pairwise.imp_of_mem ?_ hsub
      intro w v hw hv hlt
      have hwt : t ≠ w := fun he => (bne_iff_ne.mp (List.mem_filter.mp hw).2) he.symm
      have hvt : t ≠ v := fun he => (bne_iff_ne.mp (List.mem_filter.mp hv).2) he.symm
      rw [List.indexOf_cons_ne ts hwt, List.indexOf_cons_ne ts hvt]
      exact Nat.succ_lt_succ hlt

theorem counter_pairwise_idx (tokens : List String) :
    (counter tokens).Pairwise (fun a b => tokens.indexOf a.1 < tokens.indexOf b.1) := by
  unfold counter
  rw [List.pairwise_map]
  exact counterKeys_pairwise_idx tokens

/-! ### Properties of `pymax` and the radar schema -/

theorem foldl_max_le : ∀ (xs : List Nat) (acc : Nat),
    acc ≤ xs.foldl max acc ∧ ∀ x ∈ xs, x ≤ xs.foldl max acc
  | [], acc => ⟨Nat.le_refl _, by simp⟩
  | x :: xs, acc => by
    have ih := foldl_max_le xs (max acc x)
    refine ⟨Nat.le_trans (Nat.le_max_left acc x) ih.1, ?_⟩
    intro y hy
    rcases List.mem_cons.mp hy with rfl | hy'
    · exact Nat.le_trans (Nat.le_max_right acc y) ih.1
    · exact ih.2 y hy'

theorem foldl_max_mem : ∀ (xs : List Nat) (acc : Nat),
    xs.foldl max acc = acc ∨ xs.foldl max acc ∈ xs
  | [], _ => Or.inl rfl
  | x :: xs, acc => by
    rcases foldl_max_mem xs (max acc x) with h | h
    · rcases max_choice acc x with hm | hm
      · exact Or.inl (by rw [List.foldl_cons, h, hm])
      · exact Or.inr (by rw [List.foldl_cons, h, hm]; exact List.mem_cons_self x xs)
    · exact Or.inr (List.mem_cons_of_mem x h)

theorem pymax_spec {xs : List Nat} (h : xs ≠ []) :
    ∃ m, pymax xs = some m ∧ m ∈ xs ∧ ∀ x ∈ xs, x ≤ m := by
  cases xs with
  | nil => exact absurd rfl h
  | cons x xs =>
    refine ⟨xs.foldl max x, rfl, ?_, ?_⟩
    · rcases foldl_max_mem xs x with h' | h'
      · rw [h']
        exact List.mem_cons_self x xs
      · exact List.mem_cons_of_mem x h'
    · intro y hy
      rcases List.mem_cons.mp hy with rfl | hy'
      · exact (foldl_max_le xs y).1
      · exact (foldl_max_le xs x).2 y hy'

theorem radarSchema_of_ne_nil {words : List String} {counts : List Nat} {m : Nat}
    (hw : words ≠ []) (hm : pymax counts = some m) :
    radarSchema words counts = Except.ok (words.map (fun w => (w, m))) := by
  cases words with
  | nil => exact absurd rfl hw
  | cons w rest => simp [radarSchema, hm]

/-! ### The claims -/

/-- C1: the top-N query (`Counter.most_common` as used by `create_chart` and
by the top-20 display in `main`) returns at most `n` entries sorted by count
descending, and among entries with equal counts the token whose first
occurrence in the filtered token sequence is earlier sorts earlier;
`topN(table, 0)` is empty. -/
theorem mostCommon_topN_spec (tokens : List String) (n : Nat) :
    (mostCommon (counter tokens) n).length ≤ n ∧
    (mostCommon (counter tokens) n).Pairwise
      (fun a b => b.2 ≤ a.2 ∧ (a.2 = b.2 → tokens.indexOf a.1 < tokens.indexOf b.1)) ∧
    (∀ table : List (String × Nat), mostCommon table 0 = []) := by
  refine ⟨List.length_take_le _ _, ?_, fun table => by simp [mostCommon]⟩
  have h1 : (sortDesc (counter tokens)).Pairwise (rankRel tokens) :=
    sortDesc_pairwise (counter_pairwise_idx tokens)
  have h2 : (mostCommon (counter tokens) n).Pairwise (rankRel tokens) :=
    List.Pairwise.sublist (List.take_sublist _ _) h1
  refine h2.imp ?_
  intro a b hab
  rcases hab with h | ⟨heq, hidx⟩
  · exact ⟨Nat.le_of_lt h, fun he => by omega⟩
  · exact ⟨Nat.le_of_eq heq.symm, fun _ => hidx⟩

/-- C2: the output of `preprocess_text` contains only CJK ideographs and
ASCII letters separated by single spaces: no character outside those
alphabets (other than the space), no two consecutive whitespace characters,
no leading or trailing whitespace; empty input yields empty output. -/
theorem preprocess_text_normalized (l : List Char) :
    (∀ c ∈ preprocess_text l, isKept c = true ∨ c = ' ') ∧
    (preprocess_text l).Chain' (fun a b => ¬(isPySpace a = true ∧ isPySpace b = true)) ∧
    (∀ c, (preprocess_text l).head? = some c → isPySpace c = false) ∧
    (∀ c, (preprocess_text l).getLast? = some c → isPySpace c = false) ∧
    preprocess_text [] = [] := by
  obtain ⟨h1, h2, h3, h4⟩ := preprocess_text_invariants l
  refine ⟨h1, h2, h3, h4, ?_⟩
  simp [preprocess_text, stripTags]
  decide

/-- C3: the normalizer is idempotent:
`preprocess_text (preprocess_text x) = preprocess_text x`. -/
theorem preprocess_text_idempotent (l : List Char) :
    preprocess_text (preprocess_text l) = preprocess_text l :=
  preprocess_text_fixed l

/-- C4: the stopword-filtering comprehension inside `segment_and_count`
produces a subsequence of its input (so length does not grow and order is
preserved) containing no stopword and no token that is empty after trimming
whitespace. -/
theorem filterTokens_subsequence (tokens stopwords : List String) :
    (filterTokens tokens stopwords).Sublist tokens ∧
    (filterTokens tokens stopwords).length ≤ tokens.length ∧
    ∀ w ∈ filterTokens tokens stopwords, w ∉ stopwords ∧ pyStrip w.toList ≠ [] := by
  refine ⟨List.filter_sublist _, List.length_filter_le _ _, ?_⟩
  intro w hw
  obtain ⟨-, hcond⟩ := List.mem_filter.mp hw
  simp only [Bool.and_eq_true, Bool.not_eq_true'] at hcond
  obtain ⟨hstrip, hstop⟩ := hcond
  exact ⟨by simpa using hstop, by simpa using hstrip⟩

/-- C5: the `Counter` built in `segment_and_count` is an exact multiset
count of the filtered token sequence: the counts sum to its length, every
entry's count is the token's number of occurrences, and every token of the
sequence has its entry in the table. -/
theorem segment_and_count_multiset (cut : String → List String) (text : String)
    (stopwords : List String) :
    segment_and_count cut text stopwords = counter (filterTokens (cut text) stopwords) ∧
    ((segment_and_count cut text stopwords).map Prod.snd).sum =
      (filterTokens (cut text) stopwords).length ∧
    (∀ p ∈ segment_and_count cut text stopwords,
      p.2 = (filterTokens (cut text) stopwords).count p.1) ∧
    ∀ w ∈ filterTokens (cut text) stopwords,
      (w, (filterTokens (cut text) stopwords).count w) ∈
        segment_and_count cut text stopwords := by
  refine ⟨rfl, counter_sum _, fun p hp => counter_count hp, ?_⟩
  intro w hw
  exact List.mem_map.mpr ⟨w, mem_counterKeys.mpr hw, rfl⟩

/-- C6: the vertical bar, horizontal bar, line, scatter and area kinds all
build the identical underlying series — labels and values are parallel
sequences of equal length, zipping back to the ranked top-N entries — and
the horizontal bar variant only flips the axis flag without reordering. -/
theorem create_chart_series_aligned (t : List (String × Nat)) (n : Nat) :
    ∃ ws cs, ws = (mostCommon t n).map Prod.fst ∧ cs = (mostCommon t n).map Prod.snd ∧
      ws.length = cs.length ∧ ws.zip cs = mostCommon t n ∧
      create_chart "垂直条形图" t n = Except.ok (some (Chart.bar ws cs false)) ∧
      create_chart "水平条形图" t n = Except.ok (some (Chart.bar ws cs true)) ∧
      create_chart "折线图" t n = Except.ok (some (Chart.line ws cs false)) ∧
      create_chart "散点图" t n = Except.ok (some (Chart.scatter ws cs)) ∧
      create_chart "面积图" t n = Except.ok (some (Chart.line ws cs true)) := by
  refine ⟨_, _, rfl, rfl, by simp, ?_, ?_, ?_, ?_, ?_, ?_⟩
  · rw [List.zip_map']
    simp
  · simp [create_chart]
  · simp [create_chart]
  · simp [create_chart]
  · simp [create_chart]
  · simp [create_chart]

/-- C7: for the radar kind with a non-empty top-N selection, every
indicator's maximum is the same global maximum count of the selected
entries, and exactly one data vector of counts is emitted, aligned with the
indicator order. -/
theorem create_chart_radar_schema (t : List (String × Nat)) (n : Nat)
    (h : mostCommon t n ≠ []) :
    ∃ M schema,
      create_chart "雷达图" t n =
        Except.ok (some (Chart.radar schema [(mostCommon t n).map Prod.snd])) ∧
      schema.map Prod.fst = (mostCommon t n).map Prod.fst ∧
      (∀ p ∈ schema, p.2 = M) ∧
      M ∈ (mostCommon t n).map Prod.snd ∧
      (∀ c ∈ (mostCommon t n).map Prod.snd, c ≤ M) := by
  have hcounts : (mostCommon t n).map Prod.snd ≠ [] := by
    intro h0
    exact h (List.map_eq_nil_iff.mp h0)
  have hwords : (mostCommon t n).map Prod.fst ≠ [] := by
    intro h0
    exact h (List.map_eq_nil_iff.mp h0)
  obtain ⟨M, hM, hmem, hle⟩ := pymax_spec hcounts
  refine ⟨M, ((mostCommon t n).map Prod.fst).map (fun w => (w, M)), ?_, ?_, ?_, hmem, hle⟩
  · simp [create_chart, radarSchema_of_ne_nil hwords hM]
  · simp
  · intro p hp
    obtain ⟨w, -, rfl⟩ := List.mem_map.mp hp
    rfl

theorem create_chart_radar_schema_witness :
    mostCommon [("a", 2), ("b", 1)] 20 ≠ [] ∧
    ∃ M schema,
      create_chart "雷达图" [("a", 2), ("b", 1)] 20 =
        Except.ok (some (Chart.radar schema
          [(mostCommon [("a", 2), ("b", 1)] 20).map Prod.snd])) ∧
      schema.map Prod.fst = (mostCommon [("a", 2), ("b", 1)] 20).map Prod.fst ∧
      (∀ p ∈ schema, p.2 = M) ∧
      M ∈ (mostCommon [("a", 2), ("b", 1)] 20).map Prod.snd ∧
      (∀ c ∈ (mostCommon [("a", 2), ("b", 1)] 20).map Prod.snd, c ≤ M) :=
  ⟨by decide, create_chart_radar_schema [("a", 2), ("b", 1)] 20 (by decide)⟩

/-- C8: the word cloud is built from the full frequency table, not a top-N
selection: `draw_word_cloud` passes every (word, count) pair of the table,
with weight equal to the raw count. -/
theorem draw_word_cloud_full_table (cut : String → List String) (text : String)
    (stopwords : List String) :
    (draw_word_cloud (segment_and_count cut text stopwords)).pairs =
      segment_and_count cut text stopwords ∧
    ∀ p ∈ (draw_word_cloud (segment_and_count cut text stopwords)).pairs,
      p.2 = (filterTokens (cut text) stopwords).count p.1 :=
  ⟨rfl, fun _ hp => counter_count hp⟩

/-- C9: for every chart-kind string outside the supported kinds,
`create_chart` returns `None` (no exception), `render_pyechart` skips
rendering, and the frequency table and top-20 list of the run are produced
independently of the chart kind. -/
theorem create_chart_unknown_kind (kind : String) (t : List (String × Nat)) (n : Nat)
    (cut : String → List String) (text : String) (stopwords : List String)
    (h : kind ∉ supportedKinds) :
    create_chart kind t n = Except.ok none ∧
    render_pyechart none = false ∧
    (runAnalysis cut text stopwords kind).1 =
      segment_and_count cut (String.mk (preprocess_text text.toList)) stopwords ∧
    (runAnalysis cut text stopwords kind).2.1 =
      mostCommon (runAnalysis cut text stopwords kind).1 20 := by
  simp only [supportedKinds, List.mem_cons, List.not_mem_nil, or_false, not_or] at h
  obtain ⟨h1, h2, h3, h4, h5, h6, h7⟩ := h
  refine ⟨?_, rfl, rfl, rfl⟩
  simp only [create_chart]
  rw [if_neg h1, if_neg h2, if_neg h3, if_neg h4, if_neg h5, if_neg h6, if_neg h7]

theorem create_chart_unknown_kind_witness :
    "unknown" ∉ supportedKinds ∧ create_chart "unknown" [("a", 1)] 20 = Except.ok none :=
  ⟨by decide,
    (create_chart_unknown_kind "unknown" [("a", 1)] 20 (fun _ => []) "" [] (by decide)).1⟩

/-- C10: `create_chart` is total on an empty frequency table for every
supported kind: the empty top-N guard yields empty labels and values, the
radar schema comprehension never evaluates `max(counts)`, and every kind
produces a chart with empty series. -/
theorem create_chart_empty_table_total (n : Nat) :
    create_chart "垂直条形图" [] n = Except.ok (some (Chart.bar [] [] false)) ∧
    create_chart "水平条形图" [] n = Except.ok (some (Chart.bar [] [] true)) ∧
    create_chart "饼图" [] n = Except.ok (some (Chart.pie [])) ∧
    create_chart "折线图" [] n = Except.ok (some (Chart.line [] [] false)) ∧
    create_chart "散点图" [] n = Except.ok (some (Chart.scatter [] [])) ∧
    create_chart "雷达图" [] n = Except.ok (some (Chart.radar [] [[]])) ∧
    create_chart "面积图" [] n = Except.ok (some (Chart.line [] [] true)) := by
  have h0 : mostCommon ([] : List (String × Nat)) n = [] := by simp [mostCommon, sortDesc]
  refine ⟨?_, ?_, ?_, ?_, ?_, ?_, ?_⟩ <;> simp [create_chart, h0, radarSchema]

end WebTextAnalysis
